import Mathlib

/-!
Verification of the aggregation/statistics core of `cmd/ahdbweb/main.go`
(AHDBapp's web server): scan accumulation, outlier trimming, the one-pass
mean/variance loop, median/quartile computation from sorted data,
series grouping with downsampling, and fixed-width histogram binning.

Modelling conventions (shallow embedding):
- Go `int64` / `int` values are modelled as `ℤ` (or `ℕ` for lengths and
  counts).  Auction prices are small minor-currency integers, far below
  any overflow boundary, so wrap-around is not modelled.
- Go `float64` arithmetic on real-valued aggregates (the Welford
  update, medians, quartiles) is modelled as exact arithmetic over `ℚ`.
  The one float computation whose rounding is observable in an integer
  output — the per-end trim count of `trimSorted` — is modelled
  bit-exactly: `roundFloat` is an exact model of IEEE-754 binary64
  rounding (round to nearest, ties to even) over `ℚ`.
- `math.Sqrt` has no exact computable counterpart, so a `seriesPoint`
  stores the `variance`; the Go struct's `Stddev` field is
  `math.Sqrt(variance)`, stated in theorems as `Real.sqrt` of the
  stored variance (square root is injective on nonnegative reals, so no
  information is lost by this representation).
- Go integer division/modulo truncate toward zero while Lean's `ℤ`
  division is Euclidean; every division/modulo in the source acts on
  nonnegative operands in the domains the claims quantify over, where
  the two conventions coincide.
-/

/-- Element-wise image of `seriesPoint` from `main.go` (JSON response
point).  Fields mirror the Go struct; `Stddev` is represented by the
`variance` it is the square root of (see the module comment). -/
structure seriesPoint where
  scanID : ℤ
  ts : ℤ
  n : ℕ
  min : ℚ
  q1 : ℚ
  q3 : ℚ
  max : ℚ
  mean : ℚ
  median : ℚ
  variance : ℚ
deriving DecidableEq, Repr

/-- Go's `seriesPoint{}` zero value: every field zero. -/
def zeroSeriesPoint : seriesPoint :=
  { scanID := 0, ts := 0, n := 0, min := 0, q1 := 0, q3 := 0, max := 0,
    mean := 0, median := 0, variance := 0 }

/-- Image of `scanAccumulator` from `main.go`. -/
structure scanAccumulator where
  scanID : ℤ
  ts : ℤ
  prices : List ℤ
deriving DecidableEq, Repr

/-- Image of `(*scanAccumulator).reset`: clears the price buffer and sets
the identity fields. -/
def scanAccumulator.reset (_ : scanAccumulator) (scanID ts : ℤ) : scanAccumulator :=
  { scanID := scanID, ts := ts, prices := [] }

/-- Image of `(*scanAccumulator).add`: appends one price. -/
def scanAccumulator.add (a : scanAccumulator) (price : ℤ) : scanAccumulator :=
  { a with prices := a.prices ++ [price] }

/-- Image of `medianSorted` from `main.go`: 0 on empty input, the middle
element for odd length, the average of the two middle elements for even
length.  Indexing `values[i]` is modelled by `getD` (all accesses are in
range on the paths the code takes). -/
def medianSorted (values : List ℤ) : ℚ :=
  let n := values.length
  if n = 0 then 0
  else if n % 2 = 1 then ((values.getD (n / 2) 0 : ℤ) : ℚ)
  else ((values.getD (n / 2 - 1) 0 + values.getD (n / 2) 0 : ℤ) : ℚ) / 2

/-- Round-half-to-even of a rational to an integer: the tie-breaking
rule IEEE-754 uses at the mantissa boundary. -/
def roundHalfEven (x : ℚ) : ℤ :=
  let f := ⌊x⌋
  if x - f < 1 / 2 then f
  else if 1 / 2 < x - f then f + 1
  else if f % 2 = 0 then f else f + 1

/-- Exact model of rounding a rational to the nearest IEEE-754 binary64
value (round to nearest, ties to even): scale `x` by the power of two
that brings it into the 53-bit mantissa range `[2^52, 2^53)`, round
half-to-even there, and scale back.  Nonpositive inputs are returned
unchanged (the modelled paths only round positive values), and the
magnitudes reached by `trimSorted` are far inside the normal range, so
neither subnormals nor overflow need modelling. -/
def roundFloat (x : ℚ) : ℚ :=
  if x ≤ 0 then x
  else
    let e := Int.log 2 x
    ((roundHalfEven (x * 2 ^ (52 - e)) : ℤ) : ℚ) * 2 ^ (e - 52)

/-- The per-end trim count of `trimSorted`, exactly as `main.go`
computes it in float64 arithmetic:
`int(math.Floor(float64(n) * (float64(trimPct) / 100.0)))` — convert
both operands (rounding, exact below `2^53`), divide by the exact
constant `100.0` with a rounded quotient, multiply with a rounded
product, floor.  `math.Floor` is exact on binary64 values, and the
`int()` truncation agrees with the floor because the argument is
nonnegative on this path (`n ≥ 1`, `trimPct ≥ 1`). -/
def goTrimCount (n : ℕ) (trimPct : ℤ) : ℤ :=
  ⌊roundFloat (roundFloat (n : ℚ) * roundFloat (roundFloat (trimPct : ℚ) / 100))⌋

/-- Image of `trimSorted` from `main.go`.  The count removed from each
end is the float64 computation `goTrimCount`, clamped to `(n - 1) / 2`;
the slice `values[trim : n-trim]` is `take` then `drop`. -/
def trimSorted (values : List ℤ) (trimPct : ℤ) : List ℤ :=
  if trimPct ≤ 0 then values
  else if values.length = 0 then values
  else
    let n := values.length
    let trim0 := goTrimCount n trimPct
    let maxTrim : ℤ := ((n : ℤ) - 1) / 2
    let trim := if maxTrim < trim0 then maxTrim else trim0
    (values.take (n - trim.toNat)).drop trim.toNat

/-- One iteration of the mean/second-moment loop in
`(*scanAccumulator).point`: state is `(mean, m2, index)`, and for the
element `x` at position `i` the code does `delta := x - mean`,
`mean += delta / float64(i+1)`, `delta2 := x - mean`,
`m2 += delta * delta2`. -/
def welfordStep (s : ℚ × ℚ × ℕ) (x : ℚ) : ℚ × ℚ × ℕ :=
  let mean := s.1
  let m2 := s.2.1
  let k := s.2.2
  let delta := x - mean
  let mean2 := mean + delta / ((k : ℚ) + 1)
  let delta2 := x - mean2
  (mean2, m2 + delta * delta2, k + 1)

/-- Whole mean/second-moment loop of `point`, started from
`mean = 0`, `m2 = 0`, before the first element. -/
def welfordLoop (l : List ℚ) : ℚ × ℚ × ℕ :=
  l.foldl welfordStep ((0 : ℚ), (0 : ℚ), (0 : ℕ))

/-- Running mean produced by the loop in `point`. -/
def meanOf (l : List ℤ) : ℚ :=
  (welfordLoop (l.map (fun x : ℤ => (x : ℚ)))).1

/-- Running second moment `m2` produced by the loop in `point`. -/
def m2Of (l : List ℤ) : ℚ :=
  (welfordLoop (l.map (fun x : ℤ => (x : ℚ)))).2.1

/-- Image of the variance computation in `point`:
`if n > 0 { variance = m2 / float64(n) }` (0 otherwise). -/
def varianceOf (l : List ℤ) : ℚ :=
  if 0 < l.length then m2Of l / (l.length : ℚ) else 0

/-- Lower half used by the quartile code in `point`: `prices[:n/2]` both
when `n` is even and when it is odd (the Go `if n%2 == 0` branches agree
on the lower half). -/
def lowerHalf (l : List ℤ) : List ℤ :=
  if l.length % 2 = 0 then l.take (l.length / 2) else l.take (l.length / 2)

/-- Upper half used by the quartile code in `point`: `prices[n/2:]` for
even `n`, `prices[n/2+1:]` (excluding the middle element) for odd `n`. -/
def upperHalf (l : List ℤ) : List ℤ :=
  if l.length % 2 = 0 then l.drop (l.length / 2) else l.drop (l.length / 2 + 1)

/-- First quartile of `point`: initialised to the median, overwritten by
the median of the lower half when `n > 1` and that half is nonempty. -/
def q1Of (l : List ℤ) : ℚ :=
  if 1 < l.length then
    (if 0 < (lowerHalf l).length then medianSorted (lowerHalf l) else medianSorted l)
  else medianSorted l

/-- Third quartile of `point`: initialised to the median, overwritten by
the median of the upper half when `n > 1` and that half is nonempty. -/
def q3Of (l : List ℤ) : ℚ :=
  if 1 < l.length then
    (if 0 < (upperHalf l).length then medianSorted (upperHalf l) else medianSorted l)
  else medianSorted l

/-- Image of `(*scanAccumulator).point` from `main.go`.  Empty buffers
(either before or after trimming) yield the zero point; otherwise the
trimmed buffer is reduced: min/max are the first/last elements, the
median comes from `medianSorted`, quartiles are medians of the lower and
upper halves (Go initialises `q1`/`q3` to the median and overwrites them
when `n > 1` and the half is nonempty, rendered here by
`q1Of`/`q3Of`), and mean/variance come from the one-pass loop. -/
def scanAccumulator.point (a : scanAccumulator) (trimPct : ℤ) : seriesPoint :=
  if a.prices = [] then zeroSeriesPoint
  else
    let prices := trimSorted a.prices trimPct
    let n := prices.length
    if n = 0 then zeroSeriesPoint
    else
      { scanID := a.scanID, ts := a.ts, n := n,
        min := ((prices.getD 0 0 : ℤ) : ℚ), q1 := q1Of prices,
        q3 := q3Of prices, max := ((prices.getD (n - 1) 0 : ℤ) : ℚ),
        mean := meanOf prices, median := medianSorted prices,
        variance := varianceOf prices }

/-- Image of `histogramBin` from `main.go` (`{lo, hi, count}`). -/
structure histogramBin where
  lo : ℤ
  hi : ℤ
  count : ℕ
deriving DecidableEq, Repr

/-- Bucket-index computation of `makeHistogram`:
`idx := int((p - min) / width)` followed by the two clamps
`if idx < 0 { idx = 0 }` and `if idx >= bins { idx = bins - 1 }`. -/
def binIndex (minV width bins p : ℤ) : ℤ :=
  let idx := (p - minV) / width
  let idx2 := if idx < 0 then 0 else idx
  if bins ≤ idx2 then bins - 1 else idx2

/-- Increment of `res[idx].Count++` on a bin list (the index is always
in range on the code's paths; `List.set` is a no-op out of range, where
Go would panic, a divergence no claim reaches). -/
def bumpCount (l : List histogramBin) (i : ℕ) : List histogramBin :=
  l.set i { l.getD i ⟨0, 0, 0⟩ with count := (l.getD i ⟨0, 0, 0⟩).count + 1 }

/-- Width computation of `makeHistogram`: `width := rng / int64(bins)`,
incremented when the division has a remainder, floored at 1. -/
def codeWidth (rng bins : ℤ) : ℤ :=
  let width0 := rng / bins + (if rng % bins ≠ 0 then 1 else 0)
  if width0 < 1 then 1 else width0

/-- Initial bucket list of `makeHistogram`: `bins` fixed-width buckets
starting at `min`, each `{lo, lo + width, 0}`. -/
def baseBins (minV width : ℤ) (bins : ℕ) : List histogramBin :=
  (List.range bins).map
    (fun (i : ℕ) => (⟨minV + (i : ℤ) * width, minV + (i : ℤ) * width + width, 0⟩ : histogramBin))

/-- Image of `makeHistogram` from `main.go`: returns `(min, max, bins)`.
Empty input gives `(0, 0, [])`; equal min/max gives the single full bin;
otherwise `bins` fixed-width buckets of width `ceil(range / bins)`
(computed by `codeWidth` as truncating division plus a remainder test,
with a floor of 1) are built and each price is counted at its clamped
bucket index. -/
def makeHistogram (sortedPrices : List ℤ) (bins0 : ℤ) : ℤ × ℤ × List histogramBin :=
  let n := sortedPrices.length
  if n = 0 then (0, 0, [])
  else
    let minV := sortedPrices.getD 0 0
    let maxV := sortedPrices.getD (n - 1) 0
    if minV = maxV then (minV, maxV, [⟨minV, maxV, n⟩])
    else
      let bins := if bins0 ≤ 0 then 24 else bins0
      let width := codeWidth (maxV - minV) bins
      let filled := sortedPrices.foldl
        (fun acc p => bumpCount acc (binIndex minV width bins p).toNat)
        (baseBins minV width bins.toNat)
      (minV, maxV, filled)

/-- One row of the series query: `(scanId, ts, price)`. -/
structure row where
  scanId : ℤ
  ts : ℤ
  price : ℤ
deriving DecidableEq, Repr

/-- Mutable state of the grouping loop in `handleSeries`: the output
point list, the accumulator, and the `curScanID`/`curTS` trackers. -/
structure loopState where
  points : List seriesPoint
  acc : scanAccumulator
  curScanID : ℤ
  curTS : ℤ
deriving DecidableEq, Repr

/-- One iteration of the row loop in `handleSeries` (`main.go`): open a
scan when none is open (`curScanID == -1` sentinel), close and reopen on
a `scanId` change, refresh the timestamp on a `ts` change, then append
the price. -/
def seriesStep (trimPct : ℤ) (st : loopState) (r : row) : loopState :=
  let st1 := if st.curScanID = -1 then
      { st with
        curScanID := r.scanId
        curTS := r.ts
        acc := st.acc.reset r.scanId r.ts }
    else st
  let st2 := if r.scanId ≠ st1.curScanID then
      { points := st1.points ++ [st1.acc.point trimPct]
        acc := st1.acc.reset r.scanId r.ts
        curScanID := r.scanId
        curTS := r.ts }
    else st1
  let st3 := if r.ts ≠ st2.curTS then
      { st2 with acc := { st2.acc with ts := r.ts }, curTS := r.ts }
    else st2
  { st3 with acc := st3.acc.add r.price }

/-- Initial loop state of `handleSeries`: no points, a zero-valued
accumulator, `curScanID = -1`, `curTS = 0`. -/
def initialLoopState : loopState :=
  { points := [], acc := { scanID := 0, ts := 0, prices := [] },
    curScanID := -1, curTS := 0 }

/-- End-of-stream step of `handleSeries`: a still-open accumulator with
at least one price is reduced and appended. -/
def finishPoints (trimPct : ℤ) (st : loopState) : List seriesPoint :=
  if st.acc.prices = [] then st.points else st.points ++ [st.acc.point trimPct]

/-- Point list produced by the grouping loop of `handleSeries` before
sorting and downsampling. -/
def rawPoints (rows : List row) (trimPct : ℤ) : List seriesPoint :=
  finishPoints trimPct (rows.foldl (seriesStep trimPct) initialLoopState)

/-- Timestamp order used by `sort.Slice(points, ...)` in `handleSeries`. -/
def ptLE (p q : seriesPoint) : Prop := p.ts ≤ q.ts

instance : DecidableRel ptLE := fun p q => inferInstanceAs (Decidable (p.ts ≤ q.ts))

instance : IsTotal seriesPoint ptLE := ⟨fun p q => le_total p.ts q.ts⟩

instance : IsTrans seriesPoint ptLE := ⟨fun _ _ _ h h2 => le_trans h h2⟩

/-- Image of the tail of `handleSeries`: sort the produced points by
timestamp ascending (Go uses `sort.Slice`, modelled by a sort producing
a ts-sorted permutation, which is the only property the code relies on),
then keep only the most recent `maxPoints` by tail truncation. -/
def buildSeries (rows : List row) (trimPct : ℤ) (maxPoints : ℕ) : List seriesPoint :=
  let pts := List.insertionSort ptLE (rawPoints rows trimPct)
  if maxPoints < pts.length then pts.drop (pts.length - maxPoints) else pts

/-- Trim count as the specification words it: remove
`min(floor(n * trimPct / 100), floor((n - 1) / 2))` elements from each
end (stated for comparison with the source's `trimSorted`). -/
def specTrimCount (n : ℕ) (trimPct : ℤ) : ℕ :=
  min (n * trimPct.toNat / 100) ((n - 1) / 2)

/-- Histogram bin width as the specification words it:
`ceil((max - min) / bins)`, with a minimum of 1 (stated for comparison
with the width computed inside `makeHistogram`). -/
def specWidth (rng bins : ℤ) : ℤ :=
  max 1 ⌈(rng : ℚ) / (bins : ℚ)⌉

/-- Bucket assignment as the specification words it:
`floor((price - min) / width)` clamped into `[0, bins - 1]` (stated for
comparison with the source's `binIndex`). -/
def specBinIdx (minV width bins p : ℤ) : ℤ :=
  min (bins - 1) (max 0 ⌊((p - minV : ℤ) : ℚ) / (width : ℚ)⌋)

/-- Open scan of the specification's Series Builder state machine
(section 4.4): the id, the current timestamp, and the prices seen. -/
structure openScan where
  id : ℤ
  ts : ℤ
  prices : List ℤ
deriving DecidableEq, Repr

/-- Series Builder fold as the specification words it (rules 2-5 of
section 4.4), given an open scan: a row with a different `scanId` closes
the open scan (reduce and append) and opens a new one seeded with that
row; a row with the same `scanId` updates the timestamp when it differs
(last-write-wins) and appends its price; at end of stream an open scan
with at least one price is closed. -/
def specBuild (trimPct : ℤ) : List row → openScan → List seriesPoint
  | [], s =>
    if s.prices = [] then []
    else [scanAccumulator.point ⟨s.id, s.ts, s.prices⟩ trimPct]
  | r :: rs, s =>
    if r.scanId ≠ s.id then
      scanAccumulator.point ⟨s.id, s.ts, s.prices⟩ trimPct ::
        specBuild trimPct rs ⟨r.scanId, r.ts, [r.price]⟩
    else
      specBuild trimPct rs ⟨s.id, if r.ts ≠ s.ts then r.ts else s.ts, s.prices ++ [r.price]⟩

/-- Series Builder output as the specification words it (rule 1 of
section 4.4 plus `specBuild`): the first row opens a scan, the rest are
folded by `specBuild`; one point per contiguous `scanId` group. -/
def specPoints (trimPct : ℤ) : List row → List seriesPoint
  | [] => []
  | r :: rs => specBuild trimPct rs ⟨r.scanId, r.ts, [r.price]⟩

/-- Uniqueness of the binary exponent: the power-of-two bracket pins
down `Int.log 2`. -/
lemma int_log_eval (x : ℚ) (e : ℤ) (hx : 0 < x) (h1 : (2 : ℚ) ^ e ≤ x)
    (h2 : x < (2 : ℚ) ^ (e + 1)) : Int.log 2 x = e := by
  have hcast : ((2 : ℕ) : ℚ) = (2 : ℚ) := by norm_num
  have ha : e ≤ Int.log 2 x := by
    rw [← Int.zpow_le_iff_le_log (by norm_num) hx, hcast]
    exact h1
  have hb : Int.log 2 x < e + 1 := by
    rw [← Int.lt_zpow_iff_log_lt (by norm_num) hx, hcast]
    exact h2
  omega

/-- Evaluation of `roundHalfEven` when the fractional part is below one
half. -/
lemma roundHalfEven_eval_lt (x : ℚ) (f : ℤ) (h1 : (f : ℚ) ≤ x) (h2 : x < f + 1)
    (h3 : x - f < 1 / 2) : roundHalfEven x = f := by
  have hf : ⌊x⌋ = f := Int.floor_eq_iff.mpr ⟨h1, h2⟩
  unfold roundHalfEven
  rw [hf, if_pos h3]

/-- Evaluation of `roundFloat` from a power-of-two bracket and the
rounded mantissa. -/
lemma roundFloat_eval (x : ℚ) (e m : ℤ) (hx : 0 < x) (h1 : (2 : ℚ) ^ e ≤ x)
    (h2 : x < (2 : ℚ) ^ (e + 1)) (hm : roundHalfEven (x * 2 ^ (52 - e)) = m) :
    roundFloat x = (m : ℚ) * 2 ^ (e - 52) := by
  have hlog : Int.log 2 x = e := int_log_eval x e hx h1 h2
  unfold roundFloat
  rw [if_neg (not_le.mpr hx)]
  dsimp only
  rw [hlog, hm]

/-- The float64 trim count at `n = 100`, `trimPct = 29`: binary64
rounds `29/100` down to `5224175567749775 / 2^54`, the product with 100
rounds to `8162774324609023 / 2^48 = 28.999999999999996…`, and the
floor is 28 — one less than the exact `⌊100 · 29 / 100⌋ = 29`. -/
lemma goTrimCount_100_29 : goTrimCount 100 29 = 28 := by
  have hA : roundFloat (100 : ℚ) = 100 := by
    have hm : roundHalfEven ((100 : ℚ) * 2 ^ ((52 : ℤ) - 6)) = 7036874417766400 := by
      apply roundHalfEven_eval_lt <;> norm_num
    rw [roundFloat_eval 100 6 7036874417766400 (by norm_num) (by norm_num) (by norm_num) hm]
    norm_num
  have hB : roundFloat (29 : ℚ) = 29 := by
    have hm : roundHalfEven ((29 : ℚ) * 2 ^ ((52 : ℤ) - 4)) = 8162774324609024 := by
      apply roundHalfEven_eval_lt <;> norm_num
    rw [roundFloat_eval 29 4 8162774324609024 (by norm_num) (by norm_num) (by norm_num) hm]
    norm_num
  have hC : roundFloat ((29 : ℚ) / 100) = 5224175567749775 / 2 ^ 54 := by
    have hm : roundHalfEven ((29 : ℚ) / 100 * 2 ^ ((52 : ℤ) - (-2))) =
        5224175567749775 := by
      apply roundHalfEven_eval_lt <;> norm_num
    rw [roundFloat_eval ((29 : ℚ) / 100) (-2) 5224175567749775 (by norm_num) (by norm_num)
      (by norm_num) hm]
    norm_num
  have hD : roundFloat ((100 : ℚ) * (5224175567749775 / 2 ^ 54)) =
      8162774324609023 / 2 ^ 48 := by
    have hm : roundHalfEven ((100 : ℚ) * (5224175567749775 / 2 ^ 54) * 2 ^ ((52 : ℤ) - 4)) =
        8162774324609023 := by
      apply roundHalfEven_eval_lt <;> norm_num
    rw [roundFloat_eval ((100 : ℚ) * (5224175567749775 / 2 ^ 54)) 4 8162774324609023
      (by norm_num) (by norm_num) (by norm_num) hm]
    norm_num
  have hE : ⌊(8162774324609023 : ℚ) / 2 ^ 48⌋ = 28 :=
    Int.floor_eq_iff.mpr ⟨by norm_num, by norm_num⟩
  unfold goTrimCount
  rw [show ((100 : ℕ) : ℚ) = (100 : ℚ) by norm_num,
    show ((29 : ℤ) : ℚ) = (29 : ℚ) by norm_num, hA, hB, hC, hD, hE]

/-- Zero percentage is a no-op. -/
lemma trimSorted_zero (l : List ℤ) : trimSorted l 0 = l := by
  simp [trimSorted]

/-- Trimming the empty list gives the empty list. -/
lemma trimSorted_nil (p : ℤ) : trimSorted [] p = [] := by
  simp [trimSorted]

/-- Trimming never empties a nonempty list (for any percentage): the
clamp to `(n - 1) / 2` in the integer code guarantees a survivor no
matter what count the float computation produced. -/
lemma trimSorted_ne_nil (l : List ℤ) (p : ℤ) (h : l ≠ []) : trimSorted l p ≠ [] := by
  rcases le_or_lt p 0 with hp | hp
  · simpa [trimSorted, hp] using h
  · have h1 : 1 ≤ l.length := List.length_pos.mpr h
    unfold trimSorted
    rw [if_neg (by omega), if_neg (by omega)]
    dsimp only
    intro hc
    have hlen := congrArg List.length hc
    simp only [List.length_drop, List.length_take, List.length_nil] at hlen
    generalize goTrimCount l.length p = T at hlen
    split_ifs at hlen <;> omega

/-- Trimming returns a sublist of the input. -/
lemma trimSorted_sublist (l : List ℤ) (p : ℤ) : List.Sublist (trimSorted l p) l := by
  unfold trimSorted
  split_ifs with h1 h2
  · exact List.Sublist.refl l
  · exact List.Sublist.refl l
  · dsimp only
    exact List.Sublist.trans (List.drop_sublist _ _) (List.take_sublist _ _)

/-- C3: evaluation of the trimming code at the failing input.  For a
100-element list with `trimPct = 29` the float64 trim count is 28 per
end, so 44 elements survive, whereas the claimed formula
`min(floor(n * trimPct / 100), floor((n - 1) / 2)) = 29` per end would
leave 42.  The code therefore does not remove exactly the claimed
count: the float64 product rounds just below 29 and floors to 28. -/
theorem C3_float_trim_divergence :
    (trimSorted (List.replicate 100 (0 : ℤ)) 29).length = 44 ∧
      100 - 2 * specTrimCount 100 29 = 42 := by
  constructor
  · unfold trimSorted
    rw [if_neg (by norm_num), if_neg (by simp)]
    dsimp only
    rw [List.length_replicate, goTrimCount_100_29, if_neg (by norm_num)]
    simp only [List.length_drop, List.length_take, List.length_replicate]
    omega
  · decide

/-- C10: reducing an accumulator whose price buffer is empty yields the
all-zero `seriesPoint` for every trim percentage (and trimming the
empty buffer is itself well defined, returning the empty list). -/
theorem C10_empty_reduce (scanID ts trimPct : ℤ) :
    scanAccumulator.point ⟨scanID, ts, []⟩ trimPct = zeroSeriesPoint ∧
      trimSorted [] trimPct = [] := by
  exact ⟨by simp [scanAccumulator.point], trimSorted_nil trimPct⟩

/-- Both parity branches of the Go code give the same lower half. -/
lemma lowerHalf_eq (l : List ℤ) : lowerHalf l = l.take (l.length / 2) := by
  unfold lowerHalf
  split <;> rfl

/-- Upper half for even length. -/
lemma upperHalf_even (l : List ℤ) (h : l.length % 2 = 0) :
    upperHalf l = l.drop (l.length / 2) := by
  simp [upperHalf, h]

/-- Upper half for odd length excludes the middle element. -/
lemma upperHalf_odd (l : List ℤ) (h : l.length % 2 = 1) :
    upperHalf l = l.drop (l.length / 2 + 1) := by
  have h0 : ¬ l.length % 2 = 0 := by omega
  simp [upperHalf, h0]

/-- With more than one element the first quartile is the median of the
lower half (which is then nonempty). -/
lemma q1Of_gt1 (l : List ℤ) (h : 1 < l.length) :
    q1Of l = medianSorted (l.take (l.length / 2)) := by
  have hl : 0 < (l.take (l.length / 2)).length := by
    simp only [List.length_take]
    omega
  unfold q1Of
  rw [lowerHalf_eq, if_pos h, if_pos hl]

/-- With more than one element and even length the third quartile is the
median of the last `n/2` elements. -/
lemma q3Of_gt1_even (l : List ℤ) (h : 1 < l.length) (h2 : l.length % 2 = 0) :
    q3Of l = medianSorted (l.drop (l.length / 2)) := by
  have hu : 0 < (l.drop (l.length / 2)).length := by
    simp only [List.length_drop]
    omega
  unfold q3Of
  rw [upperHalf_even l h2, if_pos h, if_pos hu]

/-- With more than one element and odd length the third quartile is the
median of the elements above the middle one. -/
lemma q3Of_gt1_odd (l : List ℤ) (h : 1 < l.length) (h2 : l.length % 2 = 1) :
    q3Of l = medianSorted (l.drop (l.length / 2 + 1)) := by
  have hu : 0 < (l.drop (l.length / 2 + 1)).length := by
    simp only [List.length_drop]
    omega
  unfold q3Of
  rw [upperHalf_odd l h2, if_pos h, if_pos hu]

/-- With at most one element both quartiles fall back to the median. -/
lemma q1Of_le1 (l : List ℤ) (h : l.length ≤ 1) : q1Of l = medianSorted l := by
  have h1 : ¬ 1 < l.length := by omega
  simp [q1Of, h1]

/-- With at most one element both quartiles fall back to the median. -/
lemma q3Of_le1 (l : List ℤ) (h : l.length ≤ 1) : q3Of l = medianSorted l := by
  have h1 : ¬ 1 < l.length := by omega
  simp [q3Of, h1]

/-- Field-wise description of `point` on a nonempty buffer. -/
lemma point_eq (a : scanAccumulator) (t : ℤ) (h : a.prices ≠ []) :
    a.point t =
      { scanID := a.scanID, ts := a.ts, n := (trimSorted a.prices t).length,
        min := (((trimSorted a.prices t).getD 0 0 : ℤ) : ℚ),
        q1 := q1Of (trimSorted a.prices t), q3 := q3Of (trimSorted a.prices t),
        max := (((trimSorted a.prices t).getD ((trimSorted a.prices t).length - 1) 0 : ℤ) : ℚ),
        mean := meanOf (trimSorted a.prices t),
        median := medianSorted (trimSorted a.prices t),
        variance := varianceOf (trimSorted a.prices t) } := by
  have h2 : trimSorted a.prices t ≠ [] := trimSorted_ne_nil _ _ h
  have hn : (trimSorted a.prices t).length ≠ 0 := fun hc => h2 (List.length_eq_zero.mp hc)
  simp [scanAccumulator.point, h, hn]

/-- C4: the reducer's quartiles follow the exclusive median-of-halves
method: for even `n` the halves are the first and last `n/2` elements,
for odd `n` both halves exclude the middle element, for `n ≤ 1` both
quartiles equal the median; the median is the middle element for odd
`n` and the average of the two middle elements for even `n`. -/
theorem C4_quartile_method (scanID ts : ℤ) (l : List ℤ) (hs : l.Sorted (· ≤ ·))
    (h : l ≠ []) :
    (1 < l.length → l.length % 2 = 0 →
        (scanAccumulator.point ⟨scanID, ts, l⟩ 0).q1 = medianSorted (l.take (l.length / 2)) ∧
          (scanAccumulator.point ⟨scanID, ts, l⟩ 0).q3 = medianSorted (l.drop (l.length / 2))) ∧
      (1 < l.length → l.length % 2 = 1 →
        (scanAccumulator.point ⟨scanID, ts, l⟩ 0).q1 = medianSorted (l.take (l.length / 2)) ∧
          (scanAccumulator.point ⟨scanID, ts, l⟩ 0).q3 =
            medianSorted (l.drop (l.length / 2 + 1))) ∧
      (l.length ≤ 1 →
        (scanAccumulator.point ⟨scanID, ts, l⟩ 0).q1 =
            (scanAccumulator.point ⟨scanID, ts, l⟩ 0).median ∧
          (scanAccumulator.point ⟨scanID, ts, l⟩ 0).q3 =
            (scanAccumulator.point ⟨scanID, ts, l⟩ 0).median) ∧
      (scanAccumulator.point ⟨scanID, ts, l⟩ 0).median = medianSorted l ∧
      (l.length % 2 = 1 → medianSorted l = ((l.getD (l.length / 2) 0 : ℤ) : ℚ)) ∧
      (l.length % 2 = 0 →
        medianSorted l =
          ((l.getD (l.length / 2 - 1) 0 + l.getD (l.length / 2) 0 : ℤ) : ℚ) / 2) := by
  have hn : l.length ≠ 0 := fun hc => h (List.length_eq_zero.mp hc)
  rw [point_eq ⟨scanID, ts, l⟩ 0 h]
  simp only [trimSorted_zero]
  refine ⟨?_, ?_, ?_, trivial, ?_, ?_⟩
  · intro h1 h2
    exact ⟨q1Of_gt1 l h1, q3Of_gt1_even l h1 h2⟩
  · intro h1 h2
    exact ⟨q1Of_gt1 l h1, q3Of_gt1_odd l h1 h2⟩
  · intro h1
    exact ⟨q1Of_le1 l h1, q3Of_le1 l h1⟩
  · intro hodd
    simp [medianSorted, hn, hodd]
  · intro heven
    have hne : ¬ l.length % 2 = 1 := by omega
    simp [medianSorted, hn, hne]

/-- Witness for C4 at `l = [1, 2, 3]`. -/
theorem C4_quartile_method_witness :
    ([1, 2, 3] : List ℤ).Sorted (· ≤ ·) ∧ ([1, 2, 3] : List ℤ) ≠ [] ∧
      (1 < ([1, 2, 3] : List ℤ).length → ([1, 2, 3] : List ℤ).length % 2 = 1 →
        (scanAccumulator.point ⟨7, 100, [1, 2, 3]⟩ 0).q1 =
            medianSorted (([1, 2, 3] : List ℤ).take (([1, 2, 3] : List ℤ).length / 2)) ∧
          (scanAccumulator.point ⟨7, 100, [1, 2, 3]⟩ 0).q3 =
            medianSorted (([1, 2, 3] : List ℤ).drop (([1, 2, 3] : List ℤ).length / 2 + 1))) := by
  refine ⟨by decide, by decide, ?_⟩
  exact (C4_quartile_method 7 100 [1, 2, 3] (by decide) (by decide)).2.1

/-- Monotonicity of indexing on a sorted list. -/
lemma sorted_getD_mono (l : List ℤ) (h : l.Sorted (· ≤ ·)) {i j : ℕ} (hij : i ≤ j)
    (hj : j < l.length) : l.getD i 0 ≤ l.getD j 0 := by
  rcases eq_or_lt_of_le hij with rfl | hlt
  · exact le_refl _
  · have hi : i < l.length := lt_trans hlt hj
    rw [List.getD_eq_getElem l 0 hi, List.getD_eq_getElem l 0 hj]
    exact List.pairwise_iff_get.mp h ⟨i, hi⟩ ⟨j, hj⟩ hlt

/-- Indexing into a prefix. -/
lemma getD_take (l : List ℤ) (k i : ℕ) (h : i < k) :
    (l.take k).getD i 0 = l.getD i 0 := by
  rw [List.getD_eq_getElem?_getD, List.getD_eq_getElem?_getD, List.getElem?_take, if_pos h]

/-- Indexing into a suffix. -/
lemma getD_drop (l : List ℤ) (k i : ℕ) :
    (l.drop k).getD i 0 = l.getD (k + i) 0 := by
  rw [List.getD_eq_getElem?_getD, List.getD_eq_getElem?_getD, List.getElem?_drop]

/-- On a sorted nonempty list the median is at least the first element. -/
lemma medianSorted_ge_head (l : List ℤ) (h : l.Sorted (· ≤ ·)) (hne : l ≠ []) :
    ((l.getD 0 0 : ℤ) : ℚ) ≤ medianSorted l := by
  have hn : l.length ≠ 0 := fun hc => hne (List.length_eq_zero.mp hc)
  unfold medianSorted
  rw [if_neg hn]
  split_ifs with hodd
  · exact_mod_cast sorted_getD_mono l h (Nat.zero_le _) (by omega)
  · have h1 : l.getD 0 0 ≤ l.getD (l.length / 2 - 1) 0 :=
      sorted_getD_mono l h (Nat.zero_le _) (by omega)
    have h2 : l.getD (l.length / 2 - 1) 0 ≤ l.getD (l.length / 2) 0 :=
      sorted_getD_mono l h (by omega) (by omega)
    qify at h1 h2
    push_cast
    linarith

/-- On a sorted nonempty list the median is at most the last element. -/
lemma medianSorted_le_last (l : List ℤ) (h : l.Sorted (· ≤ ·)) (hne : l ≠ []) :
    medianSorted l ≤ ((l.getD (l.length - 1) 0 : ℤ) : ℚ) := by
  have hn : l.length ≠ 0 := fun hc => hne (List.length_eq_zero.mp hc)
  unfold medianSorted
  rw [if_neg hn]
  split_ifs with hodd
  · exact_mod_cast sorted_getD_mono l h (by omega) (by omega)
  · have h1 : l.getD (l.length / 2) 0 ≤ l.getD (l.length - 1) 0 :=
      sorted_getD_mono l h (by omega) (by omega)
    have h2 : l.getD (l.length / 2 - 1) 0 ≤ l.getD (l.length / 2) 0 :=
      sorted_getD_mono l h (by omega) (by omega)
    qify at h1 h2
    push_cast
    linarith

/-- On a sorted list with at least two elements the median is at least
the element left of the middle. -/
lemma le_median_of_left (l : List ℤ) (h : l.Sorted (· ≤ ·)) (h1 : 1 < l.length) :
    ((l.getD (l.length / 2 - 1) 0 : ℤ) : ℚ) ≤ medianSorted l := by
  have hn : l.length ≠ 0 := by omega
  unfold medianSorted
  rw [if_neg hn]
  split_ifs with hodd
  · exact_mod_cast sorted_getD_mono l h (by omega) (by omega)
  · have h2 : l.getD (l.length / 2 - 1) 0 ≤ l.getD (l.length / 2) 0 :=
      sorted_getD_mono l h (by omega) (by omega)
    qify at h2
    push_cast
    linarith

/-- On a sorted nonempty list the median is at most the middle element
`values[n/2]`. -/
lemma median_le_of_right (l : List ℤ) (h : l.Sorted (· ≤ ·)) (hne : l ≠ []) :
    medianSorted l ≤ ((l.getD (l.length / 2) 0 : ℤ) : ℚ) := by
  have hn : l.length ≠ 0 := fun hc => hne (List.length_eq_zero.mp hc)
  unfold medianSorted
  rw [if_neg hn]
  split_ifs with hodd
  · exact le_refl _
  · have h2 : l.getD (l.length / 2 - 1) 0 ≤ l.getD (l.length / 2) 0 :=
      sorted_getD_mono l h (by omega) (by omega)
    qify at h2
    push_cast
    linarith

/-- C1: on any accumulator with a sorted, nonempty price buffer (hence
for every nonempty sorted post-trim list) the reducer's statistics
satisfy `min ≤ q1 ≤ median ≤ q3 ≤ max`. -/
theorem C1_order_chain (a : scanAccumulator) (t : ℤ) (hs : a.prices.Sorted (· ≤ ·))
    (h : a.prices ≠ []) :
    (a.point t).min ≤ (a.point t).q1 ∧ (a.point t).q1 ≤ (a.point t).median ∧
      (a.point t).median ≤ (a.point t).q3 ∧ (a.point t).q3 ≤ (a.point t).max := by
  rw [point_eq a t h]
  have hsort : (trimSorted a.prices t).Sorted (· ≤ ·) :=
    List.Pairwise.sublist (trimSorted_sublist _ _) hs
  have hne : trimSorted a.prices t ≠ [] := trimSorted_ne_nil _ _ h
  dsimp only
  set l := trimSorted a.prices t with hldef
  have hn : l.length ≠ 0 := fun hc => hne (List.length_eq_zero.mp hc)
  rcases le_or_lt l.length 1 with h1 | h1
  · rw [q1Of_le1 l h1, q3Of_le1 l h1]
    exact ⟨medianSorted_ge_head l hsort hne, le_refl _, le_refl _,
      medianSorted_le_last l hsort hne⟩
  · rw [q1Of_gt1 l h1]
    have hLs : (l.take (l.length / 2)).Sorted (· ≤ ·) :=
      List.Pairwise.sublist (List.take_sublist _ _) hsort
    have hLlen : (l.take (l.length / 2)).length = l.length / 2 := by
      simp only [List.length_take]
      omega
    have hLne : l.take (l.length / 2) ≠ [] := by
      intro hc
      have hc2 := congrArg List.length hc
      rw [hLlen] at hc2
      simp at hc2
      omega
    refine ⟨?_, ?_, ?_⟩
    · have hhead := medianSorted_ge_head _ hLs hLne
      rw [getD_take l (l.length / 2) 0 (by omega)] at hhead
      exact hhead
    · have hlast := medianSorted_le_last _ hLs hLne
      rw [hLlen, getD_take l (l.length / 2) (l.length / 2 - 1) (by omega)] at hlast
      exact le_trans hlast (le_median_of_left l hsort h1)
    rcases Nat.mod_two_eq_zero_or_one l.length with h2 | h2
    · rw [q3Of_gt1_even l h1 h2]
      have hUs : (l.drop (l.length / 2)).Sorted (· ≤ ·) :=
        List.Pairwise.sublist (List.drop_sublist _ _) hsort
      have hUlen : (l.drop (l.length / 2)).length = l.length - l.length / 2 :=
        List.length_drop _ _
      have hUne : l.drop (l.length / 2) ≠ [] := by
        intro hc
        have hc2 := congrArg List.length hc
        rw [hUlen] at hc2
        simp at hc2
        omega
      constructor
      · have hhead := medianSorted_ge_head _ hUs hUne
        rw [getD_drop l (l.length / 2) 0] at hhead
        refine le_trans (median_le_of_right l hsort hne) ?_
        simpa using hhead
      · have hlast := medianSorted_le_last _ hUs hUne
        rw [hUlen, getD_drop l (l.length / 2) (l.length - l.length / 2 - 1)] at hlast
        have harith : l.length / 2 + (l.length - l.length / 2 - 1) = l.length - 1 := by
          omega
        rw [harith] at hlast
        exact hlast
    · rw [q3Of_gt1_odd l h1 h2]
      have hUs : (l.drop (l.length / 2 + 1)).Sorted (· ≤ ·) :=
        List.Pairwise.sublist (List.drop_sublist _ _) hsort
      have hUlen : (l.drop (l.length / 2 + 1)).length = l.length - (l.length / 2 + 1) :=
        List.length_drop _ _
      have hUne : l.drop (l.length / 2 + 1) ≠ [] := by
        intro hc
        have hc2 := congrArg List.length hc
        rw [hUlen] at hc2
        simp at hc2
        omega
      constructor
      · have hhead := medianSorted_ge_head _ hUs hUne
        rw [getD_drop l (l.length / 2 + 1) 0] at hhead
        have hmono : l.getD (l.length / 2) 0 ≤ l.getD (l.length / 2 + 1) 0 :=
          sorted_getD_mono l hsort (by omega) (by omega)
        have hmono2 : ((l.getD (l.length / 2) 0 : ℤ) : ℚ) ≤
            ((l.getD (l.length / 2 + 1) 0 : ℤ) : ℚ) := by exact_mod_cast hmono
        refine le_trans (median_le_of_right l hsort hne) (le_trans hmono2 ?_)
        simpa using hhead
      · have hlast := medianSorted_le_last _ hUs hUne
        rw [hUlen, getD_drop l (l.length / 2 + 1) (l.length - (l.length / 2 + 1) - 1)]
          at hlast
        have harith : l.length / 2 + 1 + (l.length - (l.length / 2 + 1) - 1) =
            l.length - 1 := by omega
        rw [harith] at hlast
        exact hlast

/-- Witness for C1 at the accumulator `⟨1, 100, [10, 20, 30]⟩`. -/
theorem C1_order_chain_witness :
    ([10, 20, 30] : List ℤ).Sorted (· ≤ ·) ∧ ([10, 20, 30] : List ℤ) ≠ [] ∧
      ((scanAccumulator.point ⟨1, 100, [10, 20, 30]⟩ 0).min ≤
          (scanAccumulator.point ⟨1, 100, [10, 20, 30]⟩ 0).q1 ∧
        (scanAccumulator.point ⟨1, 100, [10, 20, 30]⟩ 0).q1 ≤
          (scanAccumulator.point ⟨1, 100, [10, 20, 30]⟩ 0).median ∧
        (scanAccumulator.point ⟨1, 100, [10, 20, 30]⟩ 0).median ≤
          (scanAccumulator.point ⟨1, 100, [10, 20, 30]⟩ 0).q3 ∧
        (scanAccumulator.point ⟨1, 100, [10, 20, 30]⟩ 0).q3 ≤
          (scanAccumulator.point ⟨1, 100, [10, 20, 30]⟩ 0).max) := by
  refine ⟨by decide, by decide, ?_⟩
  exact C1_order_chain ⟨1, 100, [10, 20, 30]⟩ 0 (by decide) (by decide)

/-- Loop invariant of the one-pass mean/second-moment computation: after
folding `xs` onto state `(mean, m2, k)`, the counter advances by the
length, the new mean times the new count is the old weighted mean plus
the sum, and `m2` tracks the sum of squares minus count times squared
mean. -/
lemma welford_invariant (xs : List ℚ) : ∀ (mean m2 : ℚ) (k : ℕ),
    (xs.foldl welfordStep (mean, m2, k)).2.2 = k + xs.length ∧
      (xs.foldl welfordStep (mean, m2, k)).1 * ((k : ℚ) + (xs.length : ℚ)) =
        mean * (k : ℚ) + xs.sum ∧
      (xs.foldl welfordStep (mean, m2, k)).2.1 =
        m2 + mean ^ 2 * (k : ℚ) + (xs.map (fun x => x ^ 2)).sum -
          (xs.foldl welfordStep (mean, m2, k)).1 ^ 2 * ((k : ℚ) + (xs.length : ℚ)) := by
  induction xs with
  | nil =>
    intro mean m2 k
    refine ⟨by simp, by simp, ?_⟩
    simp only [List.foldl_nil, List.map_nil, List.sum_nil, List.length_nil, Nat.cast_zero,
      add_zero]
    ring
  | cons x xs ih =>
    intro mean m2 k
    have hk : ((k : ℚ) + 1) ≠ 0 := by positivity
    obtain ⟨ih1, ih2, ih3⟩ := ih (mean + (x - mean) / ((k : ℚ) + 1))
      (m2 + (x - mean) * (x - (mean + (x - mean) / ((k : ℚ) + 1)))) (k + 1)
    have hmean : (mean + (x - mean) / ((k : ℚ) + 1)) * ((k : ℚ) + 1) =
        mean * (k : ℚ) + x := by
      field_simp
      ring
    have hm2 : (m2 + (x - mean) * (x - (mean + (x - mean) / ((k : ℚ) + 1)))) +
        (mean + (x - mean) / ((k : ℚ) + 1)) ^ 2 * ((k : ℚ) + 1) =
        m2 + mean ^ 2 * (k : ℚ) + x ^ 2 := by
      field_simp
      ring
    rw [List.foldl_cons]
    have hstep : welfordStep (mean, m2, k) x =
        (mean + (x - mean) / ((k : ℚ) + 1),
          m2 + (x - mean) * (x - (mean + (x - mean) / ((k : ℚ) + 1))), k + 1) := rfl
    rw [hstep]
    push_cast at ih1 ih2 ih3 ⊢
    simp only [List.length_cons, List.sum_cons, List.map_cons] at ih1 ih2 ih3 ⊢
    push_cast at ih1 ih2 ih3 ⊢
    refine ⟨by omega, ?_, ?_⟩
    · linear_combination ih2 + hmean
    · linear_combination ih3 + hm2

/-- Closed form of the loop on a nonempty list: the final mean is the
arithmetic mean and the final `m2` is the sum of squares minus the
squared sum over the count. -/
lemma welfordLoop_spec (l : List ℚ) (h : l ≠ []) :
    (welfordLoop l).1 = l.sum / (l.length : ℚ) ∧
      (welfordLoop l).2.1 =
        (l.map (fun x => x ^ 2)).sum - l.sum ^ 2 / (l.length : ℚ) := by
  have hn : l.length ≠ 0 := fun hc => h (List.length_eq_zero.mp hc)
  have hnq : ((l.length : ℚ)) ≠ 0 := Nat.cast_ne_zero.mpr hn
  obtain ⟨h1, h2, h3⟩ := welford_invariant l 0 0 0
  have hmean : (welfordLoop l).1 = l.sum / (l.length : ℚ) := by
    unfold welfordLoop
    rw [eq_div_iff hnq]
    simpa using h2
  refine ⟨hmean, ?_⟩
  have h3' : (welfordLoop l).2.1 =
      (l.map (fun x => x ^ 2)).sum - (welfordLoop l).1 ^ 2 * (l.length : ℚ) := by
    unfold welfordLoop
    simpa using h3
  rw [h3', hmean]
  have hsq : (l.sum / (l.length : ℚ)) ^ 2 * (l.length : ℚ) =
      l.sum ^ 2 / (l.length : ℚ) := by
    field_simp
    ring
  rw [hsq]

/-- Expansion of the sum of squared deviations. -/
lemma sum_sq_dev (xs : List ℚ) (m : ℚ) :
    (xs.map (fun x => (x - m) ^ 2)).sum =
      (xs.map (fun x => x ^ 2)).sum - 2 * m * xs.sum + (xs.length : ℚ) * m ^ 2 := by
  induction xs with
  | nil => simp
  | cons x xs ih =>
    simp only [List.map_cons, List.sum_cons, List.length_cons]
    push_cast
    linear_combination ih

/-- Composition of the cast map with squared deviation. -/
lemma map_cast_dev (l : List ℤ) (m : ℚ) :
    (l.map (fun x : ℤ => (x : ℚ))).map (fun y => (y - m) ^ 2) =
      l.map (fun x : ℤ => ((x : ℚ) - m) ^ 2) := by
  rw [List.map_map]
  rfl

/-- The running mean of the loop is exactly the arithmetic mean. -/
lemma meanOf_eq (l : List ℤ) (h : l ≠ []) :
    meanOf l = (l.map (fun x : ℤ => (x : ℚ))).sum / (l.length : ℚ) := by
  have hL : l.map (fun x : ℤ => (x : ℚ)) ≠ [] := by simpa using h
  have hspec := (welfordLoop_spec _ hL).1
  rw [List.length_map] at hspec
  unfold meanOf
  exact hspec

/-- The final `m2` is the sum of squares minus squared sum over count. -/
lemma m2Of_eq (l : List ℤ) (h : l ≠ []) :
    m2Of l = ((l.map (fun x : ℤ => (x : ℚ))).map (fun x => x ^ 2)).sum -
      (l.map (fun x : ℤ => (x : ℚ))).sum ^ 2 / (l.length : ℚ) := by
  have hL : l.map (fun x : ℤ => (x : ℚ)) ≠ [] := by simpa using h
  have hspec := (welfordLoop_spec _ hL).2
  rw [List.length_map] at hspec
  unfold m2Of
  exact hspec

/-- The code's variance is exactly the population variance: mean of the
squared deviations from the arithmetic mean. -/
lemma varianceOf_eq (l : List ℤ) (h : l ≠ []) :
    varianceOf l = (l.map (fun x : ℤ => ((x : ℚ) - meanOf l) ^ 2)).sum / (l.length : ℚ) := by
  have hn : l.length ≠ 0 := fun hc => h (List.length_eq_zero.mp hc)
  have hnq : ((l.length : ℚ)) ≠ 0 := Nat.cast_ne_zero.mpr hn
  rw [varianceOf, if_pos (Nat.pos_of_ne_zero hn), m2Of_eq l h, ← map_cast_dev l (meanOf l),
    sum_sq_dev, List.length_map, meanOf_eq l h]
  field_simp
  ring

/-- C2: the one-pass loop in `point` computes exactly the arithmetic
mean and the population variance (squared deviations from the mean,
divided by `n`); the variance is never negative, and for a constant
list the variance — hence the stddev `sqrt(variance)` — is zero. -/
theorem C2_welford_exact (l : List ℤ) (h : l ≠ []) :
    meanOf l = (l.map (fun x : ℤ => (x : ℚ))).sum / (l.length : ℚ) ∧
      varianceOf l =
        (l.map (fun x : ℤ => ((x : ℚ) - meanOf l) ^ 2)).sum / (l.length : ℚ) ∧
      0 ≤ varianceOf l ∧
      (∀ c : ℤ, (∀ x ∈ l, x = c) →
        varianceOf l = 0 ∧ Real.sqrt ((varianceOf l : ℚ) : ℝ) = 0) := by
  have hn : l.length ≠ 0 := fun hc => h (List.length_eq_zero.mp hc)
  have hnq : ((l.length : ℚ)) ≠ 0 := Nat.cast_ne_zero.mpr hn
  refine ⟨meanOf_eq l h, varianceOf_eq l h, ?_, ?_⟩
  · rw [varianceOf_eq l h]
    apply div_nonneg
    · apply List.sum_nonneg
      intro z hz
      obtain ⟨x, hx, rfl⟩ := List.mem_map.mp hz
      positivity
    · exact Nat.cast_nonneg _
  · intro c hc
    have hsum : (l.map (fun x : ℤ => (x : ℚ))).sum = (l.length : ℚ) * (c : ℚ) := by
      have hall : ∀ y ∈ l.map (fun x : ℤ => (x : ℚ)), y = (c : ℚ) := by
        intro y hy
        obtain ⟨x, hx, rfl⟩ := List.mem_map.mp hy
        rw [hc x hx]
      have := List.sum_eq_card_nsmul _ _ hall
      rw [List.length_map] at this
      simpa [nsmul_eq_mul] using this
    have hmeanc : meanOf l = (c : ℚ) := by
      rw [meanOf_eq l h, hsum]
      field_simp
    have hzero : (l.map (fun x : ℤ => ((x : ℚ) - meanOf l) ^ 2)).sum = 0 := by
      apply List.sum_eq_zero
      intro z hz
      obtain ⟨x, hx, rfl⟩ := List.mem_map.mp hz
      rw [hc x hx, hmeanc]
      simp
    have hv0 : varianceOf l = 0 := by
      rw [varianceOf_eq l h, hzero, zero_div]
    refine ⟨hv0, ?_⟩
    rw [hv0]
    simp

/-- Witness for C2 at `l = [4, 4]`. -/
theorem C2_welford_exact_witness :
    ([4, 4] : List ℤ) ≠ [] ∧
      (meanOf [4, 4] =
          (([4, 4] : List ℤ).map (fun x : ℤ => (x : ℚ))).sum /
            ((([4, 4] : List ℤ).length : ℕ) : ℚ) ∧
        varianceOf [4, 4] =
          (([4, 4] : List ℤ).map (fun x : ℤ => ((x : ℚ) - meanOf [4, 4]) ^ 2)).sum /
            ((([4, 4] : List ℤ).length : ℕ) : ℚ) ∧
        0 ≤ varianceOf [4, 4] ∧
        (∀ c : ℤ, (∀ x ∈ ([4, 4] : List ℤ), x = c) →
          varianceOf [4, 4] = 0 ∧ Real.sqrt ((varianceOf [4, 4] : ℚ) : ℝ) = 0)) := by
  exact ⟨by decide, C2_welford_exact [4, 4] (by decide)⟩

/-- Total count stored in a bin list. -/
def sumCounts (B : List histogramBin) : ℕ :=
  (B.map (fun bin => bin.count)).sum

/-- Bumping preserves the list length. -/
lemma bumpCount_length (B : List histogramBin) (i : ℕ) :
    (bumpCount B i).length = B.length := by
  unfold bumpCount
  exact List.length_set B i _

/-- Reading back the bumped index. -/
lemma bumpCount_getD_self (B : List histogramBin) (i : ℕ) (h : i < B.length) :
    (bumpCount B i).getD i ⟨0, 0, 0⟩ =
      { B.getD i ⟨0, 0, 0⟩ with count := (B.getD i ⟨0, 0, 0⟩).count + 1 } := by
  unfold bumpCount
  rw [List.getD_eq_getElem?_getD, List.getElem?_set_self h]
  rfl

/-- Reading any other index is unchanged by a bump. -/
lemma bumpCount_getD_ne (B : List histogramBin) (i j : ℕ) (h : i ≠ j) :
    (bumpCount B i).getD j ⟨0, 0, 0⟩ = B.getD j ⟨0, 0, 0⟩ := by
  unfold bumpCount
  rw [List.getD_eq_getElem?_getD, List.getElem?_set_ne h, ← List.getD_eq_getElem?_getD]

/-- An in-range bump adds exactly one to the total count. -/
lemma bumpCount_sum (B : List histogramBin) : ∀ (i : ℕ), i < B.length →
    sumCounts (bumpCount B i) = sumCounts B + 1 := by
  induction B with
  | nil =>
    intro i h
    simp at h
  | cons bhd btl ih =>
    intro i h
    cases i with
    | zero =>
      simp only [bumpCount, sumCounts, List.set_cons_zero, List.getD_cons_zero, List.map_cons,
        List.sum_cons]
      omega
    | succ k =>
      have hk : k < btl.length := by simpa using h
      have htl := ih k hk
      simp only [bumpCount, sumCounts, List.set_cons_succ, List.getD_cons_succ, List.map_cons,
        List.sum_cons] at htl ⊢
      omega

/-- Folding bumps preserves the list length. -/
lemma foldl_bump_length (f : ℤ → ℕ) (ps : List ℤ) : ∀ (B : List histogramBin),
    (ps.foldl (fun acc p => bumpCount acc (f p)) B).length = B.length := by
  induction ps with
  | nil =>
    intro B
    rfl
  | cons p ps ih =>
    intro B
    rw [List.foldl_cons, ih, bumpCount_length]

/-- Folding in-range bumps adds the number of prices to the total. -/
lemma foldl_bump_sum (f : ℤ → ℕ) (ps : List ℤ) : ∀ (B : List histogramBin),
    (∀ p ∈ ps, f p < B.length) →
    sumCounts (ps.foldl (fun acc p => bumpCount acc (f p)) B) = sumCounts B + ps.length := by
  induction ps with
  | nil =>
    intro B _
    simp
  | cons p ps ih =>
    intro B h
    have h1 : f p < B.length := h p (by simp)
    have h2 : ∀ q ∈ ps, f q < (bumpCount B (f p)).length := by
      intro q hq
      rw [bumpCount_length]
      exact h q (by simp [hq])
    rw [List.foldl_cons, ih _ h2, bumpCount_sum B (f p) h1, List.length_cons]
    omega

/-- After folding the bumps, bin `i` holds its initial count plus the
number of prices assigned to `i`, and its bounds are unchanged. -/
lemma foldl_bump_getD (f : ℤ → ℕ) (ps : List ℤ) : ∀ (B : List histogramBin) (i : ℕ),
    (∀ p ∈ ps, f p < B.length) →
    ((ps.foldl (fun acc p => bumpCount acc (f p)) B).getD i ⟨0, 0, 0⟩).count =
        (B.getD i ⟨0, 0, 0⟩).count + ps.countP (fun p => f p == i) ∧
      ((ps.foldl (fun acc p => bumpCount acc (f p)) B).getD i ⟨0, 0, 0⟩).lo =
        (B.getD i ⟨0, 0, 0⟩).lo ∧
      ((ps.foldl (fun acc p => bumpCount acc (f p)) B).getD i ⟨0, 0, 0⟩).hi =
        (B.getD i ⟨0, 0, 0⟩).hi := by
  induction ps with
  | nil =>
    intro B i _
    simp
  | cons p ps ih =>
    intro B i h
    have h1 : f p < B.length := h p (by simp)
    have h2 : ∀ q ∈ ps, f q < (bumpCount B (f p)).length := by
      intro q hq
      rw [bumpCount_length]
      exact h q (by simp [hq])
    obtain ⟨ihc, ihl, ihh⟩ := ih (bumpCount B (f p)) i h2
    rw [List.foldl_cons]
    rcases eq_or_ne (f p) i with heq | hne
    · subst heq
      rw [List.countP_cons]
      have hself := bumpCount_getD_self B (f p) h1
      refine ⟨?_, ?_, ?_⟩
      · rw [ihc, hself]
        simp
        omega
      · rw [ihl, hself]
      · rw [ihh, hself]
    · rw [List.countP_cons]
      have hoth := bumpCount_getD_ne B (f p) i hne
      have hcond : (f p == i) = false := by
        simp [hne]
      refine ⟨?_, ?_, ?_⟩
      · rw [ihc, hoth, hcond]
        simp
      · rw [ihl, hoth]
      · rw [ihh, hoth]

/-- Length of the initial bucket list. -/
lemma baseBins_length (minV width : ℤ) (bins : ℕ) :
    (baseBins minV width bins).length = bins := by
  simp [baseBins]

/-- The initial buckets carry no counts. -/
lemma baseBins_sum (minV width : ℤ) (bins : ℕ) :
    sumCounts (baseBins minV width bins) = 0 := by
  unfold sumCounts baseBins
  rw [List.map_map]
  apply List.sum_eq_zero
  intro x hx
  obtain ⟨i, _, rfl⟩ := List.mem_map.mp hx
  rfl

/-- The `i`-th initial bucket. -/
lemma baseBins_getD (minV width : ℤ) (bins : ℕ) (i : ℕ) (h : i < bins) :
    (baseBins minV width bins).getD i ⟨0, 0, 0⟩ =
      ⟨minV + (i : ℤ) * width, minV + (i : ℤ) * width + width, 0⟩ := by
  unfold baseBins
  rw [List.getD_eq_getElem?_getD, List.getElem?_map]
  simp [List.getElem?_range, h]

/-- The clamped bucket index always lands in `[0, bins - 1]`. -/
lemma binIndex_mem (minV width bins p : ℤ) (hb : 1 ≤ bins) :
    0 ≤ binIndex minV width bins p ∧ binIndex minV width bins p ≤ bins - 1 := by
  unfold binIndex
  dsimp only []
  generalize (p - minV) / width = j
  split_ifs <;> omega

/-- The clamped bucket index is a valid position in the bucket list. -/
lemma binIndex_toNat_lt (minV width bins p : ℤ) (hb : 1 ≤ bins) :
    (binIndex minV width bins p).toNat < bins.toNat := by
  obtain ⟨h1, h2⟩ := binIndex_mem minV width bins p hb
  omega

/-- Bounds pinning down the code's width: it is at least 1, `bins`
buckets of it cover the range, and one fewer bucket would not. -/
lemma codeWidth_bounds (rng b : ℤ) (hr : 0 < rng) (hb : 0 < b) :
    1 ≤ codeWidth rng b ∧ rng ≤ codeWidth rng b * b ∧ (codeWidth rng b - 1) * b < rng := by
  have hq := Int.ediv_add_emod rng b
  have hr0 : 0 ≤ rng % b := Int.emod_nonneg rng (ne_of_gt hb)
  have hrb : rng % b < b := Int.emod_lt_of_pos rng hb
  have hq0 : 0 ≤ rng / b := Int.ediv_nonneg (le_of_lt hr) (le_of_lt hb)
  unfold codeWidth
  dsimp only []
  rcases eq_or_ne (rng % b) 0 with hm | hm
  · have hq1 : 1 ≤ rng / b := by nlinarith [hq]
    have hinner : (if rng % b ≠ 0 then (1 : ℤ) else 0) = 0 := by simp [hm]
    rw [hinner, add_zero, if_neg (by omega : ¬ rng / b < 1)]
    have hcomm : (rng / b) * b = b * (rng / b) := mul_comm _ _
    have hcomm2 : (rng / b - 1) * b = b * (rng / b) - b := by ring
    refine ⟨hq1, by linarith, by linarith⟩
  · have hr1 : 0 < rng % b := lt_of_le_of_ne hr0 (Ne.symm hm)
    have hinner : (if rng % b ≠ 0 then (1 : ℤ) else 0) = 1 := by simp [hm]
    rw [hinner, if_neg (by omega : ¬ rng / b + 1 < 1)]
    have hcomm : (rng / b + 1) * b = b * (rng / b) + b := by ring
    have hcomm2 : (rng / b + 1 - 1) * b = b * (rng / b) := by ring
    refine ⟨by omega, by linarith, by linarith⟩

/-- The code's width is exactly `max(1, ceil(range / bins))`, the width
the specification describes. -/
lemma codeWidth_eq_specWidth (rng b : ℤ) (hr : 0 < rng) (hb : 0 < b) :
    codeWidth rng b = specWidth rng b := by
  obtain ⟨h1, h2, h3⟩ := codeWidth_bounds rng b hr hb
  have hbq : (0 : ℚ) < (b : ℚ) := by exact_mod_cast hb
  have hceil : ⌈(rng : ℚ) / (b : ℚ)⌉ = codeWidth rng b := by
    rw [Int.ceil_eq_iff]
    constructor
    · rw [lt_div_iff hbq]
      exact_mod_cast by linarith [h3]
    · rw [div_le_iff hbq]
      exact_mod_cast h2
  unfold specWidth
  rw [hceil]
  exact (max_eq_right h1).symm

/-- Empty-input branch of `makeHistogram`. -/
lemma makeHistogram_nil (b : ℤ) : makeHistogram [] b = (0, 0, []) := by
  simp [makeHistogram]

/-- Degenerate branch of `makeHistogram`: equal min and max give one
full bucket. -/
lemma makeHistogram_degen (l : List ℤ) (b : ℤ) (hne : l ≠ [])
    (heq : l.getD 0 0 = l.getD (l.length - 1) 0) :
    makeHistogram l b = (l.getD 0 0, l.getD 0 0, [⟨l.getD 0 0, l.getD 0 0, l.length⟩]) := by
  have hn : l.length ≠ 0 := fun hc => hne (List.length_eq_zero.mp hc)
  unfold makeHistogram
  rw [if_neg hn]
  dsimp only []
  rw [if_pos heq, ← heq]

/-- Floor of an integer quotient over `ℚ` is integer division (positive
divisor). -/
lemma floor_int_div (a w : ℤ) (hw : 0 < w) : ⌊(a : ℚ) / (w : ℚ)⌋ = a / w := by
  have h1 : ((w.toNat : ℕ) : ℤ) = w := Int.toNat_of_nonneg (le_of_lt hw)
  have h2 : ((w.toNat : ℕ) : ℚ) = (w : ℚ) := by exact_mod_cast congrArg (Int.cast : ℤ → ℚ) h1
  rw [← h2, Rat.floor_intCast_div_natCast, h1]

/-- The code's clamped bucket index is the specification's
`floor((p - min) / width)` clamped into `[0, bins - 1]`. -/
lemma binIndex_eq_specBinIdx (minV w b p : ℤ) (hw : 0 < w) :
    binIndex minV w b p = specBinIdx minV w b p := by
  unfold binIndex specBinIdx
  dsimp only []
  rw [floor_int_div (p - minV) w hw]
  generalize (p - minV) / w = j
  split_ifs <;> omega

/-- Non-degenerate branch of `makeHistogram` in terms of the named
helpers. -/
lemma makeHistogram_nondegen (l : List ℤ) (b : ℤ) (hne : l ≠ [])
    (hmm : l.getD 0 0 ≠ l.getD (l.length - 1) 0) :
    makeHistogram l b =
      (l.getD 0 0, l.getD (l.length - 1) 0,
        l.foldl
          (fun acc p => bumpCount acc
            (binIndex (l.getD 0 0)
              (codeWidth (l.getD (l.length - 1) 0 - l.getD 0 0) (if b ≤ 0 then 24 else b))
              (if b ≤ 0 then 24 else b) p).toNat)
          (baseBins (l.getD 0 0)
            (codeWidth (l.getD (l.length - 1) 0 - l.getD 0 0) (if b ≤ 0 then 24 else b))
            (if b ≤ 0 then 24 else b).toNat)) := by
  have hn : l.length ≠ 0 := fun hc => hne (List.length_eq_zero.mp hc)
  unfold makeHistogram
  rw [if_neg hn]
  dsimp only []
  rw [if_neg hmm]

/-- C7: the histogram's bin counts always sum to the number of input
prices; equal min/max yields exactly one bin spanning `[min, max]` with
count `n`; empty input yields `min = max = 0` and no bins. -/
theorem C7_histogram_totals (l : List ℤ) (b : ℤ) (hs : l.Sorted (· ≤ ·)) :
    (((makeHistogram l b).2.2).map (fun bin => bin.count)).sum = l.length ∧
      (l ≠ [] → l.getD 0 0 = l.getD (l.length - 1) 0 →
        makeHistogram l b =
          (l.getD 0 0, l.getD 0 0, [⟨l.getD 0 0, l.getD 0 0, l.length⟩])) ∧
      makeHistogram ([] : List ℤ) b = (0, 0, []) := by
  refine ⟨?_, fun hne heq => makeHistogram_degen l b hne heq, makeHistogram_nil b⟩
  rcases eq_or_ne l ([] : List ℤ) with rfl | hne
  · simp [makeHistogram_nil]
  rcases eq_or_ne (l.getD 0 0) (l.getD (l.length - 1) 0) with heq | hmm2
  · rw [makeHistogram_degen l b hne heq]
    simp
  · rw [makeHistogram_nondegen l b hne hmm2]
    have hbins : 1 ≤ (if b ≤ 0 then 24 else b) := by
      split_ifs <;> omega
    have hf : ∀ p ∈ l,
        (binIndex (l.getD 0 0)
          (codeWidth (l.getD (l.length - 1) 0 - l.getD 0 0) (if b ≤ 0 then 24 else b))
          (if b ≤ 0 then 24 else b) p).toNat <
        (baseBins (l.getD 0 0)
          (codeWidth (l.getD (l.length - 1) 0 - l.getD 0 0) (if b ≤ 0 then 24 else b))
          (if b ≤ 0 then 24 else b).toNat).length := by
      intro p _
      rw [baseBins_length]
      exact binIndex_toNat_lt _ _ _ p hbins
    have hsum := foldl_bump_sum _ l _ hf
    rw [baseBins_sum] at hsum
    simpa [sumCounts] using hsum

/-- Witness for C7 at the constant list `[2, 2]`, `b = 5`. -/
theorem C7_histogram_totals_witness :
    ([2, 2] : List ℤ).Sorted (· ≤ ·) ∧
      ((((makeHistogram [2, 2] 5).2.2).map (fun bin => bin.count)).sum =
          ([2, 2] : List ℤ).length ∧
        (([2, 2] : List ℤ) ≠ [] →
          ([2, 2] : List ℤ).getD 0 0 =
            ([2, 2] : List ℤ).getD (([2, 2] : List ℤ).length - 1) 0 →
          makeHistogram [2, 2] 5 =
            (([2, 2] : List ℤ).getD 0 0, ([2, 2] : List ℤ).getD 0 0,
              [⟨([2, 2] : List ℤ).getD 0 0, ([2, 2] : List ℤ).getD 0 0,
                ([2, 2] : List ℤ).length⟩])) ∧
        makeHistogram ([] : List ℤ) 5 = (0, 0, [])) := by
  exact ⟨by decide, C7_histogram_totals [2, 2] 5 (by decide)⟩

/-- C8: in the non-degenerate case (`min < max`, valid bin count) the
histogram uses width `max(1, ceil((max - min) / bins))`, produces
exactly `bins` buckets with `lo = min + i * width`, `hi = lo + width`,
and counts each price in bucket `floor((price - min) / width)` clamped
into `[0, bins - 1]`. -/
theorem C8_histogram_shape (l : List ℤ) (b : ℤ) (hs : l.Sorted (· ≤ ·)) (hne : l ≠ [])
    (hlt : l.getD 0 0 < l.getD (l.length - 1) 0) (hb : 1 ≤ b) :
    ((makeHistogram l b).2.2).length = b.toNat ∧
      (∀ i : ℕ, i < b.toNat →
        ((makeHistogram l b).2.2.getD i ⟨0, 0, 0⟩).lo =
            l.getD 0 0 + (i : ℤ) * specWidth (l.getD (l.length - 1) 0 - l.getD 0 0) b ∧
          ((makeHistogram l b).2.2.getD i ⟨0, 0, 0⟩).hi =
            l.getD 0 0 + (i : ℤ) * specWidth (l.getD (l.length - 1) 0 - l.getD 0 0) b +
              specWidth (l.getD (l.length - 1) 0 - l.getD 0 0) b) ∧
      (∀ i : ℕ, i < b.toNat →
        ((makeHistogram l b).2.2.getD i ⟨0, 0, 0⟩).count =
          l.countP (fun p =>
            specBinIdx (l.getD 0 0)
              (specWidth (l.getD (l.length - 1) 0 - l.getD 0 0) b) b p = (i : ℤ))) := by
  have hbe : (if b ≤ 0 then (24 : ℤ) else b) = b := if_neg (by omega)
  have hrng : 0 < l.getD (l.length - 1) 0 - l.getD 0 0 := by omega
  obtain ⟨hcw1, hcw2, hcw3⟩ :=
    codeWidth_bounds (l.getD (l.length - 1) 0 - l.getD 0 0) b hrng (by omega)
  have hwspec := codeWidth_eq_specWidth (l.getD (l.length - 1) 0 - l.getD 0 0) b hrng (by omega)
  rw [makeHistogram_nondegen l b hne (ne_of_lt hlt), hbe]
  have hf : ∀ p ∈ l,
      (binIndex (l.getD 0 0) (codeWidth (l.getD (l.length - 1) 0 - l.getD 0 0) b) b p).toNat <
      (baseBins (l.getD 0 0) (codeWidth (l.getD (l.length - 1) 0 - l.getD 0 0) b)
        b.toNat).length := by
    intro p _
    rw [baseBins_length]
    exact binIndex_toNat_lt _ _ _ p hb
  refine ⟨?_, ?_, ?_⟩
  · rw [foldl_bump_length, baseBins_length]
  · intro i hi
    obtain ⟨_, hlo, hhi⟩ := foldl_bump_getD _ l _ i hf
    rw [hlo, hhi, baseBins_getD _ _ _ i hi, ← hwspec]
    exact ⟨rfl, rfl⟩
  · intro i hi
    obtain ⟨hcount, _, _⟩ := foldl_bump_getD _ l _ i hf
    rw [hcount, baseBins_getD _ _ _ i hi]
    have hcongr : l.countP (fun p =>
        (binIndex (l.getD 0 0) (codeWidth (l.getD (l.length - 1) 0 - l.getD 0 0) b) b
          p).toNat == i) =
        l.countP (fun p =>
          specBinIdx (l.getD 0 0)
            (specWidth (l.getD (l.length - 1) 0 - l.getD 0 0) b) b p = (i : ℤ)) := by
      apply List.countP_congr
      intro p _
      have hbi := binIndex_eq_specBinIdx (l.getD 0 0)
        (codeWidth (l.getD (l.length - 1) 0 - l.getD 0 0) b) b p (by omega)
      obtain ⟨hge, hle⟩ := binIndex_mem (l.getD 0 0)
        (codeWidth (l.getD (l.length - 1) 0 - l.getD 0 0) b) b p hb
      simp only [beq_iff_eq, decide_eq_true_eq]
      rw [← hwspec, ← hbi]
      omega
    rw [hcongr]
    simp

/-- Witness for C8 at `l = [0, 6]`, `b = 5`. -/
theorem C8_histogram_shape_witness :
    ([0, 6] : List ℤ).Sorted (· ≤ ·) ∧ ([0, 6] : List ℤ) ≠ [] ∧
      ([0, 6] : List ℤ).getD 0 0 < ([0, 6] : List ℤ).getD (([0, 6] : List ℤ).length - 1) 0 ∧
      (1 : ℤ) ≤ 5 ∧
      ((makeHistogram [0, 6] 5).2.2).length = (5 : ℤ).toNat := by
  refine ⟨by decide, by decide, by decide, by decide, ?_⟩
  exact (C8_histogram_shape [0, 6] 5 (by decide) (by decide) (by decide) (by decide)).1

/-- C9 counterexample: for prices `[0, 6]` with 5 bins the width is
`ceil(6/5) = 2`, the maximum price 6 falls in bucket `floor(6/2) = 3`,
and the final bucket (index 4) stays empty — so a price equal to `max`
is not counted in the final (last-index) bin. -/
theorem C9_counterexample :
    (6 : ℤ) ∈ ([0, 6] : List ℤ) ∧
      ([0, 6] : List ℤ).getD (([0, 6] : List ℤ).length - 1) 0 = 6 ∧
      ((makeHistogram [0, 6] 5).2.2).length = 5 ∧
      ((makeHistogram [0, 6] 5).2.2.getD 4 ⟨0, 0, 0⟩).count = 0 ∧
      ((makeHistogram [0, 6] 5).2.2.getD 3 ⟨0, 0, 0⟩).count = 1 := by
  decide

/-- C9 (amended): each bin covers the half-open interval `[lo, hi)` —
every input price with `bin[i].lo ≤ p < bin[i].hi` is assigned to bin
`i`; a price equal to `max` is assigned to bin
`min(floor((max - min) / width), bins - 1)`, which is the final bin
exactly when `width * (bins - 1) ≤ max - min` (in particular whenever
the width divides the range exactly), but not in general. -/
theorem C9_half_open_bins (l : List ℤ) (b : ℤ) (hs : l.Sorted (· ≤ ·)) (hne : l ≠ [])
    (hlt : l.getD 0 0 < l.getD (l.length - 1) 0) (hb : 1 ≤ b) :
    (∀ i : ℕ, i < b.toNat → ∀ p ∈ l,
        ((makeHistogram l b).2.2.getD i ⟨0, 0, 0⟩).lo ≤ p →
        p < ((makeHistogram l b).2.2.getD i ⟨0, 0, 0⟩).hi →
        specBinIdx (l.getD 0 0)
          (specWidth (l.getD (l.length - 1) 0 - l.getD 0 0) b) b p = (i : ℤ)) ∧
      specBinIdx (l.getD 0 0) (specWidth (l.getD (l.length - 1) 0 - l.getD 0 0) b) b
          (l.getD (l.length - 1) 0) =
        min ((l.getD (l.length - 1) 0 - l.getD 0 0) /
            specWidth (l.getD (l.length - 1) 0 - l.getD 0 0) b) (b - 1) ∧
      (specBinIdx (l.getD 0 0) (specWidth (l.getD (l.length - 1) 0 - l.getD 0 0) b) b
          (l.getD (l.length - 1) 0) = b - 1 ↔
        specWidth (l.getD (l.length - 1) 0 - l.getD 0 0) b * (b - 1) ≤
          l.getD (l.length - 1) 0 - l.getD 0 0) := by
  have hbe : (if b ≤ 0 then (24 : ℤ) else b) = b := if_neg (by omega)
  have hrng : 0 < l.getD (l.length - 1) 0 - l.getD 0 0 := by omega
  have hw0 : 0 < specWidth (l.getD (l.length - 1) 0 - l.getD 0 0) b :=
    lt_of_lt_of_le zero_lt_one (le_max_left 1 _)
  have hwspec := codeWidth_eq_specWidth (l.getD (l.length - 1) 0 - l.getD 0 0) b hrng
    (by omega)
  have hq0 : 0 ≤ (l.getD (l.length - 1) 0 - l.getD 0 0) /
      specWidth (l.getD (l.length - 1) 0 - l.getD 0 0) b :=
    Int.ediv_nonneg (le_of_lt hrng) (le_of_lt hw0)
  have hspecmax : specBinIdx (l.getD 0 0)
      (specWidth (l.getD (l.length - 1) 0 - l.getD 0 0) b) b (l.getD (l.length - 1) 0) =
      min (b - 1) ((l.getD (l.length - 1) 0 - l.getD 0 0) /
        specWidth (l.getD (l.length - 1) 0 - l.getD 0 0) b) := by
    unfold specBinIdx
    rw [floor_int_div _ _ hw0, max_eq_right hq0]
  refine ⟨?_, ?_, ?_⟩
  · intro i hi p hp hlo hhi
    have hf : ∀ q ∈ l,
        (binIndex (l.getD 0 0) (codeWidth (l.getD (l.length - 1) 0 - l.getD 0 0) b) b
          q).toNat <
        (baseBins (l.getD 0 0) (codeWidth (l.getD (l.length - 1) 0 - l.getD 0 0) b)
          b.toNat).length := by
      intro q _
      rw [baseBins_length]
      exact binIndex_toNat_lt _ _ _ q hb
    obtain ⟨_, hblo, hbhi⟩ := foldl_bump_getD _ l _ i hf
    rw [makeHistogram_nondegen l b hne (ne_of_lt hlt), hbe] at hlo hhi
    dsimp only at hlo hhi
    rw [hblo, baseBins_getD _ _ _ i hi] at hlo
    rw [hbhi, baseBins_getD _ _ _ i hi] at hhi
    dsimp only at hlo hhi
    rw [← hwspec] at hw0 ⊢
    unfold specBinIdx
    rw [floor_int_div _ _ hw0]
    have hexp : ((i : ℤ) + 1) * codeWidth (l.getD (l.length - 1) 0 - l.getD 0 0) b =
        (i : ℤ) * codeWidth (l.getD (l.length - 1) 0 - l.getD 0 0) b +
          codeWidth (l.getD (l.length - 1) 0 - l.getD 0 0) b := by ring
    have h1 : (i : ℤ) ≤ (p - l.getD 0 0) /
        codeWidth (l.getD (l.length - 1) 0 - l.getD 0 0) b := by
      rw [Int.le_ediv_iff_mul_le hw0]
      linarith
    have h2 : (p - l.getD 0 0) / codeWidth (l.getD (l.length - 1) 0 - l.getD 0 0) b <
        (i : ℤ) + 1 := by
      rw [Int.ediv_lt_iff_lt_mul hw0]
      linarith
    have hib : (i : ℤ) < b := by omega
    omega
  · rw [hspecmax, min_comm]
  · rw [hspecmax, min_eq_left_iff, Int.le_ediv_iff_mul_le hw0, mul_comm]

/-- Witness for the amended C9 at `l = [0, 6]`, `b = 5`. -/
theorem C9_half_open_bins_witness :
    ([0, 6] : List ℤ).Sorted (· ≤ ·) ∧ ([0, 6] : List ℤ) ≠ [] ∧
      ([0, 6] : List ℤ).getD 0 0 < ([0, 6] : List ℤ).getD (([0, 6] : List ℤ).length - 1) 0 ∧
      (1 : ℤ) ≤ 5 ∧
      specBinIdx (([0, 6] : List ℤ).getD 0 0)
          (specWidth (([0, 6] : List ℤ).getD (([0, 6] : List ℤ).length - 1) 0 -
            ([0, 6] : List ℤ).getD 0 0) 5) 5
          (([0, 6] : List ℤ).getD (([0, 6] : List ℤ).length - 1) 0) =
        min ((([0, 6] : List ℤ).getD (([0, 6] : List ℤ).length - 1) 0 -
            ([0, 6] : List ℤ).getD 0 0) /
          specWidth (([0, 6] : List ℤ).getD (([0, 6] : List ℤ).length - 1) 0 -
            ([0, 6] : List ℤ).getD 0 0) 5) (5 - 1) := by
  refine ⟨by decide, by decide, by decide, by decide, ?_⟩
  exact (C9_half_open_bins [0, 6] 5 (by decide) (by decide) (by decide) (by decide)).2.1

/-- Correspondence of the `handleSeries` loop with the specification's
Series Builder rules while a scan is open: provided no row carries the
sentinel id `-1`, folding the remaining rows and then closing gives the
already-emitted points followed by `specBuild` of the open scan. -/
lemma seriesLoop_spec (t : ℤ) (rs : List row) : ∀ (pts : List seriesPoint) (sid sts : ℤ)
    (spr : List ℤ), (∀ r ∈ rs, r.scanId ≠ -1) → sid ≠ -1 → spr ≠ [] →
    finishPoints t (rs.foldl (seriesStep t) ⟨pts, ⟨sid, sts, spr⟩, sid, sts⟩) =
      pts ++ specBuild t rs ⟨sid, sts, spr⟩ := by
  induction rs with
  | nil =>
    intro pts sid sts spr _ hid hpr
    simp [finishPoints, specBuild, hpr]
  | cons r rs ih =>
    intro pts sid sts spr hall hid hpr
    have hr : r.scanId ≠ -1 := hall r (by simp)
    have hall2 : ∀ q ∈ rs, q.scanId ≠ -1 := fun q hq => hall q (by simp [hq])
    rw [List.foldl_cons]
    rcases eq_or_ne r.scanId sid with heq | hne2
    · by_cases hts : r.ts = sts
      · have hstep : seriesStep t ⟨pts, ⟨sid, sts, spr⟩, sid, sts⟩ r =
            ⟨pts, ⟨sid, sts, spr ++ [r.price]⟩, sid, sts⟩ := by
          simp [seriesStep, scanAccumulator.reset, scanAccumulator.add, hid, heq, hts]
        have hspec : specBuild t (r :: rs) ⟨sid, sts, spr⟩ =
            specBuild t rs ⟨sid, sts, spr ++ [r.price]⟩ := by
          simp [specBuild, heq, hts]
        rw [hstep, hspec, ih pts sid sts (spr ++ [r.price]) hall2 hid (by simp)]
      · have hstep : seriesStep t ⟨pts, ⟨sid, sts, spr⟩, sid, sts⟩ r =
            ⟨pts, ⟨sid, r.ts, spr ++ [r.price]⟩, sid, r.ts⟩ := by
          simp [seriesStep, scanAccumulator.reset, scanAccumulator.add, hid, heq, hts]
        have hspec : specBuild t (r :: rs) ⟨sid, sts, spr⟩ =
            specBuild t rs ⟨sid, r.ts, spr ++ [r.price]⟩ := by
          simp [specBuild, heq, hts]
        rw [hstep, hspec, ih pts sid r.ts (spr ++ [r.price]) hall2 hid (by simp)]
    · have hstep : seriesStep t ⟨pts, ⟨sid, sts, spr⟩, sid, sts⟩ r =
          ⟨pts ++ [scanAccumulator.point ⟨sid, sts, spr⟩ t],
            ⟨r.scanId, r.ts, [r.price]⟩, r.scanId, r.ts⟩ := by
        simp [seriesStep, scanAccumulator.reset, scanAccumulator.add, hid, hne2]
      have hspec : specBuild t (r :: rs) ⟨sid, sts, spr⟩ =
          scanAccumulator.point ⟨sid, sts, spr⟩ t ::
            specBuild t rs ⟨r.scanId, r.ts, [r.price]⟩ := by
        simp [specBuild, hne2]
      rw [hstep, hspec,
        ih (pts ++ [scanAccumulator.point ⟨sid, sts, spr⟩ t]) r.scanId r.ts [r.price]
          hall2 hr (by simp), List.append_assoc]
      rfl

/-- C5 (amended): provided no row carries `scanId = -1` (the code's
in-band sentinel for "no scan open"), the grouping loop of
`handleSeries` produces exactly the points described by the
specification's Series Builder rules: one point per contiguous `scanId`
group, closed exactly when a row with a different `scanId` arrives,
timestamps last-write-wins within a scan, and a final nonempty scan
closed at end of stream. -/
theorem C5_grouping_fold (rows : List row) (t : ℤ) (h : ∀ r ∈ rows, r.scanId ≠ -1) :
    rawPoints rows t = specPoints t rows := by
  cases rows with
  | nil => rfl
  | cons r rs =>
    have hr : r.scanId ≠ -1 := h r (by simp)
    unfold rawPoints
    rw [List.foldl_cons]
    have hstep : seriesStep t initialLoopState r =
        ⟨[], ⟨r.scanId, r.ts, [r.price]⟩, r.scanId, r.ts⟩ := by
      simp [seriesStep, initialLoopState, scanAccumulator.reset, scanAccumulator.add]
    rw [hstep,
      seriesLoop_spec t rs [] r.scanId r.ts [r.price] (fun q hq => h q (by simp [hq])) hr
        (by simp)]
    simp [specPoints]

/-- C5 counterexample: on the stream `[(-1, 0, 1), (-1, 0, 2)]` the
sentinel check re-resets the accumulator on the second row, so the loop
emits one point with `n = 1` (price 2 only) while the specification's
fold emits the group's point with `n = 2`. -/
theorem C5_grouping_fold_counterexample :
    rawPoints [⟨-1, 0, 1⟩, ⟨-1, 0, 2⟩] 0 ≠ specPoints 0 [⟨-1, 0, 1⟩, ⟨-1, 0, 2⟩] := by
  intro hcontra
  have hn := congrArg (fun ps => ps.map (fun p => p.n)) hcontra
  revert hn
  decide

/-- Witness for C5 at the specification's own scenario stream. -/
theorem C5_grouping_fold_witness :
    (∀ r ∈ ([⟨1, 100, 10⟩, ⟨1, 100, 20⟩, ⟨1, 100, 30⟩, ⟨2, 200, 5⟩] : List row),
        r.scanId ≠ -1) ∧
      rawPoints [⟨1, 100, 10⟩, ⟨1, 100, 20⟩, ⟨1, 100, 30⟩, ⟨2, 200, 5⟩] 0 =
        specPoints 0 [⟨1, 100, 10⟩, ⟨1, 100, 20⟩, ⟨1, 100, 30⟩, ⟨2, 200, 5⟩] := by
  refine ⟨by decide, ?_⟩
  exact C5_grouping_fold [⟨1, 100, 10⟩, ⟨1, 100, 20⟩, ⟨1, 100, 30⟩, ⟨2, 200, 5⟩] 0 (by decide)

/-- A reduced nonempty buffer always reports a positive count. -/
lemma point_n_ne_zero (a : scanAccumulator) (t : ℤ) (h : a.prices ≠ []) :
    (a.point t).n ≠ 0 := by
  rw [point_eq a t h]
  intro hc
  exact trimSorted_ne_nil a.prices t h (List.length_eq_zero.mp hc)

/-- One loop step preserves the invariant: all emitted points have a
positive count, and while a real scan is open its buffer is nonempty. -/
lemma seriesStep_points_inv (t : ℤ) (st : loopState) (r : row)
    (h1 : ∀ p ∈ st.points, p.n ≠ 0) (h2 : st.curScanID ≠ -1 → st.acc.prices ≠ []) :
    (∀ p ∈ (seriesStep t st r).points, p.n ≠ 0) ∧
      ((seriesStep t st r).curScanID ≠ -1 → (seriesStep t st r).acc.prices ≠ []) := by
  by_cases hc1 : st.curScanID = -1
  · have hstep : seriesStep t st r =
        ⟨st.points, ⟨r.scanId, r.ts, [r.price]⟩, r.scanId, r.ts⟩ := by
      simp [seriesStep, scanAccumulator.reset, scanAccumulator.add, hc1]
    rw [hstep]
    exact ⟨h1, fun _ => by simp⟩
  · by_cases hc2 : r.scanId = st.curScanID
    · by_cases hc3 : r.ts = st.curTS
      · have hstep : seriesStep t st r =
            ⟨st.points, ⟨st.acc.scanID, st.acc.ts, st.acc.prices ++ [r.price]⟩,
              st.curScanID, st.curTS⟩ := by
          simp [seriesStep, scanAccumulator.add, hc1, hc2, hc3]
        rw [hstep]
        exact ⟨h1, fun _ => by simp⟩
      · have hstep : seriesStep t st r =
            ⟨st.points, ⟨st.acc.scanID, r.ts, st.acc.prices ++ [r.price]⟩,
              st.curScanID, r.ts⟩ := by
          simp [seriesStep, scanAccumulator.add, hc1, hc2, hc3]
        rw [hstep]
        exact ⟨h1, fun _ => by simp⟩
    · have hstep : seriesStep t st r =
          ⟨st.points ++ [st.acc.point t], ⟨r.scanId, r.ts, [r.price]⟩, r.scanId, r.ts⟩ := by
        simp [seriesStep, scanAccumulator.reset, scanAccumulator.add, hc1, hc2]
      rw [hstep]
      refine ⟨?_, fun _ => by simp⟩
      intro p hp
      rcases List.mem_append.mp hp with hp | hp
      · exact h1 p hp
      · have hpe : p = st.acc.point t := by simpa using hp
        rw [hpe]
        exact point_n_ne_zero st.acc t (h2 hc1)

/-- The loop invariant carried through the whole fold. -/
lemma foldl_series_inv (t : ℤ) (rows : List row) : ∀ (st : loopState),
    (∀ p ∈ st.points, p.n ≠ 0) → (st.curScanID ≠ -1 → st.acc.prices ≠ []) →
    (∀ p ∈ (rows.foldl (seriesStep t) st).points, p.n ≠ 0) ∧
      ((rows.foldl (seriesStep t) st).curScanID ≠ -1 →
        (rows.foldl (seriesStep t) st).acc.prices ≠ []) := by
  induction rows with
  | nil =>
    intro st h1 h2
    exact ⟨h1, h2⟩
  | cons r rs ih =>
    intro st h1 h2
    rw [List.foldl_cons]
    obtain ⟨g1, g2⟩ := seriesStep_points_inv t st r h1 h2
    exact ih _ g1 g2

/-- Every point the grouping loop emits has a positive count. -/
lemma rawPoints_n_ne_zero (rows : List row) (t : ℤ) :
    ∀ p ∈ rawPoints rows t, p.n ≠ 0 := by
  obtain ⟨h1, h2⟩ := foldl_series_inv t rows initialLoopState (by simp [initialLoopState])
    (by simp [initialLoopState])
  unfold rawPoints finishPoints
  split_ifs with hc
  · exact h1
  · intro p hp
    rcases List.mem_append.mp hp with hp | hp
    · exact h1 p hp
    · have hpe : p = (rows.foldl (seriesStep t) initialLoopState).acc.point t := by
        simpa using hp
      rw [hpe]
      exact point_n_ne_zero _ t hc

/-- Closed form of the sort-and-truncate tail of `handleSeries`:
truncation is dropping the oldest points of the sorted list (a drop of
zero when the budget is not exceeded). -/
lemma buildSeries_eq (rows : List row) (t : ℤ) (m : ℕ) :
    buildSeries rows t m =
      (List.insertionSort ptLE (rawPoints rows t)).drop
        ((List.insertionSort ptLE (rawPoints rows t)).length - m) := by
  unfold buildSeries
  dsimp only
  split_ifs with hc
  · rfl
  · rw [show (List.insertionSort ptLE (rawPoints rows t)).length - m = 0 by omega,
      List.drop_zero]

/-- C6: the final point list of the series builder is sorted ascending
by timestamp, keeps `min(count, maxPoints)` points, the kept points are
(up to permutation with the dropped ones) exactly the produced points
with every dropped point no newer than every kept point, and no emitted
point has `n = 0`. -/
theorem C6_series_output (rows : List row) (t : ℤ) (maxPoints : ℕ) :
    List.Sorted ptLE (buildSeries rows t maxPoints) ∧
      (buildSeries rows t maxPoints).length = min (rawPoints rows t).length maxPoints ∧
      (∃ dropped : List seriesPoint,
        (dropped ++ buildSeries rows t maxPoints).Perm (rawPoints rows t) ∧
          ∀ p ∈ dropped, ∀ q ∈ buildSeries rows t maxPoints, p.ts ≤ q.ts) ∧
      (∀ p ∈ buildSeries rows t maxPoints, p.n ≠ 0) := by
  have hsort : (List.insertionSort ptLE (rawPoints rows t)).Sorted ptLE :=
    List.sorted_insertionSort ptLE (rawPoints rows t)
  have hperm : (List.insertionSort ptLE (rawPoints rows t)).Perm (rawPoints rows t) :=
    List.perm_insertionSort ptLE (rawPoints rows t)
  have hlen : (List.insertionSort ptLE (rawPoints rows t)).length =
      (rawPoints rows t).length := hperm.length_eq
  rw [buildSeries_eq rows t maxPoints]
  refine ⟨?_, ?_, ?_, ?_⟩
  · exact List.Pairwise.sublist (List.drop_sublist _ _) hsort
  · rw [List.length_drop]
    omega
  · refine ⟨(List.insertionSort ptLE (rawPoints rows t)).take
      ((List.insertionSort ptLE (rawPoints rows t)).length - maxPoints), ?_, ?_⟩
    · rw [List.take_append_drop]
      exact hperm
    · have hpw := hsort
      rw [← List.take_append_drop
        ((List.insertionSort ptLE (rawPoints rows t)).length - maxPoints)
        (List.insertionSort ptLE (rawPoints rows t))] at hpw
      exact fun p hp q hq => (List.pairwise_append.mp hpw).2.2 p hp q hq
  · intro p hp
    have hp2 : p ∈ List.insertionSort ptLE (rawPoints rows t) :=
      (List.drop_sublist _ _).subset hp
    exact rawPoints_n_ne_zero rows t p (hperm.subset hp2)
